import Mathlib

/-!
Verification of the scoped configuration store (`Config`/`Scope` in
`src/model/resnet_config.py`).

The store is a stack of scopes, each a dict tagged with a path name.  The
current path (`tf.get_variable_scope().name` in the source) is external
input, so every operation here takes it as an explicit `cur : String`
argument.  Values are an arbitrary type `V`.  Python dicts become
association lists with overwrite-in-place insertion; a fallible stack
access (IndexError on an empty stack) is modelled by `Option`.
-/

namespace ScopedConfig

/-- Python `s.startswith(pre)`: `pre` is a raw character-wise prefix of `s`. -/
def strStartsWith (s pre : String) : Bool :=
  pre.data.isPrefixOf s.data

/-- One scope: `class Scope(dict)` with an attached scope `name`. -/
structure Scope (V : Type) where
  name : String
  entries : List (String × V)

/-- `Scope.contains`: `var_scope_name.startswith(self.name)`. -/
def Scope.contains {V : Type} (s : Scope V) (varScopeName : String) : Bool :=
  strStartsWith varScopeName s.name

/-- Python dict read `cs[name]` (also the membership test `name in cs`). -/
def lookupEntries {V : Type} (k : String) : List (String × V) → Option V
  | [] => none
  | p :: rest => if p.1 = k then some p.2 else lookupEntries k rest

/-- Python dict write `d[k] = v`: overwrite in place, or append a new key. -/
def setEntry {V : Type} (l : List (String × V)) (k : String) (v : V) :
    List (String × V) :=
  match l with
  | [] => [(k, v)]
  | p :: rest => if p.1 = k then (k, v) :: rest else p :: setEntry rest k v

/-- `Config._pop_stale`: pop `stack[0]` while it does not contain the current
path.  `none` models the IndexError of reading `stack[0]` off an empty list. -/
def popStale {V : Type} (cur : String) : List (Scope V) → Option (List (Scope V))
  | [] => none
  | s :: rest => if s.contains cur then some (s :: rest) else popStale cur rest

/-- The first-match search loop of `Config.__getitem__` over the stack. -/
def lookupStack {V : Type} (k : String) : List (Scope V) → Option V
  | [] => none
  | s :: rest =>
    match lookupEntries k s.entries with
    | some v => some v
    | none => lookupStack k rest

/-- `Config.__getitem__`: evict stale scopes, then search innermost first.
The outer `Option` is eviction failure; the inner `none` is the KeyError. -/
def getVal {V : Type} (cur k : String) (st : List (Scope V)) : Option (Option V) :=
  (popStale cur st).map (fun st2 => lookupStack k st2)

/-- The early-return membership loop of `Config.__contains__`. -/
def containsStack {V : Type} (k : String) : List (Scope V) → Bool
  | [] => false
  | s :: rest =>
    if (lookupEntries k s.entries).isSome then true else containsStack k rest

/-- `Config.__contains__`: evict stale scopes, then test membership. -/
def containsConfig {V : Type} (cur k : String) (st : List (Scope V)) : Option Bool :=
  (popStale cur st).map (fun st2 => containsStack k st2)

/-- `Config.__setitem__`: evict, assert the top scope contains the current
path (`none` if the assertion fails), push a fresh scope when the top name
differs from the current path, then write into the top scope. -/
def setConfig {V : Type} (cur k : String) (v : V) (st : List (Scope V)) :
    Option (List (Scope V)) :=
  match popStale cur st with
  | none => none
  | some [] => none
  | some (top :: rest) =>
    if top.contains cur then
      if top.name = cur then some (⟨top.name, setEntry top.entries k v⟩ :: rest)
      else some (⟨cur, [(k, v)]⟩ :: top :: rest)
    else none

/-- `Config.set_default`: `if name not in self: self[name] = value`.  The
membership test itself evicts stale scopes, and the write then runs on the
mutated stack. -/
def setDefault {V : Type} (cur k : String) (v : V) (st : List (Scope V)) :
    Option (List (Scope V)) :=
  match popStale cur st with
  | none => none
  | some st2 => if containsStack k st2 then some st2 else setConfig cur k v st2

/-- Python negative indexing `stack[-i]` for `0 ≤ i < len(stack)`; note
`stack[-0]` is `stack[0]`. -/
def pyNegGet {V : Type} (st : List (Scope V)) (i : Nat) : Scope V :=
  if i = 0 then st.headD ⟨"", []⟩ else st.getD (st.length - i) ⟨"", []⟩

/-- The inner loop of `Config.to_dict`: `for name in cs: out[name] = cs[name]`. -/
def insertScopeEntries {V : Type} (out : List (String × V)) (s : Scope V) :
    List (String × V) :=
  s.entries.foldl (fun o p => setEntry o p.1 p.2) out

/-- `Config.to_dict`: evict stale scopes, then
`for i in range(len(stack)): cs = stack[-i]; ...` merging every scope into
one dict, later writes overwriting earlier ones. -/
def toDict {V : Type} (cur : String) (st : List (Scope V)) :
    Option (List (String × V)) :=
  (popStale cur st).map (fun st2 =>
    (List.range st2.length).foldl (fun out i => insertScopeEntries out (pyNegGet st2 i)) [])

/-- `Config.__init__` with the FLAGS-loading loop disabled, as in the source:
the stack holds a single empty root scope named `""`. -/
def configInit {V : Type} : List (Scope V) := [⟨"", []⟩]

/-- All state transitions the store's operations can make: the pure reads
(`get`, `contains`, `to_dict`, and the membership test inside `set_default`)
mutate the stack only through eviction, and `set` mutates it through
`setConfig`.  `set_default`'s optional write is a `pop` step followed by a
`set_` step. -/
inductive Steps {V : Type} : List (Scope V) → List (Scope V) → Prop
  | refl (st : List (Scope V)) : Steps st st
  | pop (cur : String) (st1 st2 st3 : List (Scope V)) :
      Steps st1 st2 → popStale cur st2 = some st3 → Steps st1 st3
  | set_ (cur k : String) (v : V) (st1 st2 st3 : List (Scope V)) :
      Steps st1 st2 → setConfig cur k v st2 = some st3 → Steps st1 st3

/-- Store states reachable from a freshly constructed `Config`. -/
def Reachable {V : Type} (st : List (Scope V)) : Prop :=
  Steps configInit st

/-- Stack well-formedness: nonempty, each scope's name extends the name of
the scope below it, and the bottom scope is the root named `""`. -/
def StackInv {V : Type} : List (Scope V) → Prop
  | [] => False
  | [s] => s.name = ""
  | s :: t :: rest => strStartsWith s.name t.name = true ∧ StackInv (t :: rest)

/-- Some scope named `""` on the stack carries key `k`. -/
def rootKeyVisible {V : Type} (k : String) (st : List (Scope V)) : Prop :=
  ∃ s ∈ st, s.name = "" ∧ (lookupEntries k s.entries).isSome = true

end ScopedConfig
open ScopedConfig

theorem strSW_empty (s : String) : strStartsWith s "" = true := by
  show ("" : String).data.isPrefixOf s.data = true
  rw [show ("" : String).data = [] from rfl, List.isPrefixOf_iff_prefix]
  exact List.nil_prefix

theorem strSW_refl (s : String) : strStartsWith s s = true := by
  unfold strStartsWith
  rw [ List.isPrefixOf_iff_prefix]

theorem strSW_trans (a b c : String) (h1 : strStartsWith b a = true)
    (h2 : strStartsWith c b = true) : strStartsWith c a = true := by
  unfold strStartsWith at h1 h2 ⊢
  rw [ List.isPrefixOf_iff_prefix] at h1 h2 ⊢
  exact h1.trans h2

theorem strSW_append (a b : String) : strStartsWith (a ++ b) a = true := by
  unfold strStartsWith
  rw [String.data_append, List.isPrefixOf_iff_prefix]
  exact List.prefix_append _ _

theorem dataPQ (p q : String) : (p ++ "/" ++ q).data = p.data ++ '/' :: q.data := by
  rw [String.data_append, String.data_append, List.append_assoc]
  rfl

theorem strSW_pq (p q : String) : strStartsWith (p ++ "/" ++ q) p = true := by
  unfold strStartsWith
  rw [dataPQ, List.isPrefixOf_iff_prefix]
  exact List.prefix_append _ _

theorem strSW_pq_false (p q : String) : strStartsWith p (p ++ "/" ++ q) = false := by
  unfold strStartsWith
  rw [dataPQ]
  by_contra h
  rw [Bool.not_eq_false, List.isPrefixOf_iff_prefix] at h
  have := h.length_le
  simp [List.length_append] at this

theorem slash_ne (p q : String) : p ≠ p ++ "/" ++ q := by
  intro h
  have hd := congrArg String.data h
  rw [dataPQ] at hd
  have := congrArg List.length hd
  simp [List.length_append] at this

theorem strSW_name_empty (n : String) (h : strStartsWith "" n = true) : n = "" := by
  unfold strStartsWith at h
  rw [show ("" : String).data = [] from rfl] at h
  cases hn : n.data with
  | nil => exact String.ext (by rw [hn])
  | cons c cs => rw [hn] at h; simp [List.isPrefixOf] at h

theorem popStale_head_contains {V : Type} {cur : String} {st st2 : List (Scope V)}
    (h : popStale cur st = some st2) :
    ∃ t r, st2 = t :: r ∧ t.contains cur = true := by
  induction st with
  | nil => simp [popStale] at h
  | cons s rest ih =>
    by_cases hc : s.contains cur = true
    · refine ⟨s, rest, ?_, hc⟩
      simp [popStale, hc] at h
      exact h.symm
    · simp [popStale, hc] at h
      exact ih h

theorem popStale_suffix {V : Type} {cur : String} {st st2 : List (Scope V)}
    (h : popStale cur st = some st2) : st2 <:+ st := by
  induction st with
  | nil => simp [popStale] at h
  | cons s rest ih =>
    by_cases hc : s.contains cur = true
    · simp [popStale, hc] at h
      exact h ▸ List.suffix_rfl
    · simp [popStale, hc] at h
      exact (ih h).trans (List.suffix_cons s rest)

theorem popStale_of_contains {V : Type} {cur : String} {t : Scope V}
    {r : List (Scope V)} (h : t.contains cur = true) :
    popStale cur (t :: r) = some (t :: r) := by
  simp [popStale, h]

theorem popStale_idem {V : Type} {cur : String} {st st2 : List (Scope V)}
    (h : popStale cur st = some st2) : popStale cur st2 = some st2 := by
  obtain ⟨t, r, rfl, hc⟩ := popStale_head_contains h
  exact popStale_of_contains hc

theorem popStale_mem_empty_name {V : Type} (cur : String) {st : List (Scope V)}
    {s : Scope V} (hs : s ∈ st) (hn : s.name = "") :
    ∃ st2, popStale cur st = some st2 ∧ s ∈ st2 := by
  induction st with
  | nil => cases hs
  | cons t rest ih =>
    by_cases hc : t.contains cur = true
    · exact ⟨t :: rest, popStale_of_contains hc, hs⟩
    · have hcf : t.contains cur = false := by
        cases hcc : t.contains cur
        · rfl
        · exact absurd hcc hc
      have hsr : s ∈ rest := by
        rcases List.mem_cons.mp hs with h1 | h1
        · exfalso
          apply hc
          show strStartsWith cur t.name = true
          rw [← h1, hn]
          exact strSW_empty cur
        · exact h1
      obtain ⟨st2, h1, h2⟩ := ih hsr
      exact ⟨st2, by simp [popStale, hc, h1], h2⟩

theorem popStale_mem_preserved {V : Type} {cur : String} {st st2 : List (Scope V)}
    {s : Scope V} (h : popStale cur st = some st2) (hs : s ∈ st)
    (hn : s.name = "") : s ∈ st2 := by
  induction st with
  | nil => cases hs
  | cons t rest ih =>
    by_cases hc : t.contains cur = true
    · simp [popStale, hc] at h
      exact h ▸ hs
    · simp [popStale, hc] at h
      rcases List.mem_cons.mp hs with h1 | h1
    
      · exfalso
        apply hc
        show strStartsWith cur t.name = true
        rw [← h1, hn]
        exact strSW_empty cur
      · exact ih h h1

theorem contains_of_name_empty {V : Type} {t : Scope V} (hn : t.name = "")
    (cur : String) : t.contains cur = true := by
  show strStartsWith cur t.name = true
  rw [hn]
  exact strSW_empty cur

theorem stackInv_pop {V : Type} {cur : String} {st st2 : List (Scope V)}
    (hinv : StackInv st) (h : popStale cur st = some st2) : StackInv st2 := by
  induction st with
  | nil => simp [StackInv] at hinv
  | cons s rest ih =>
    by_cases hc : s.contains cur = true
    · simp [popStale, hc] at h
      exact h ▸ hinv
    · simp [popStale, hc] at h
      cases rest with
      | nil => exact absurd (contains_of_name_empty hinv cur) hc
      | cons t r => exact ih hinv.2 h

theorem bool_false_of_not_true {b : Bool} (h : ¬ b = true) : b = false := by
  cases b
  · rfl
  · exact absurd rfl h

theorem popStale_cons_false {V : Type} {cur : String} {s : Scope V}
    {rest : List (Scope V)} (hc : ¬ s.contains cur = true) :
    popStale cur (s :: rest) = popStale cur rest := by
  simp [popStale, hc]

theorem popStale_cons_contains {V : Type} {cur : String} {st : List (Scope V)}
    {t : Scope V} {r : List (Scope V)} (h : popStale cur st = some (t :: r)) :
    t.contains cur = true := by
  obtain ⟨t2, r2, heq, hc⟩ := popStale_head_contains h
  injection heq with h1 h2
  subst h1
  exact hc

theorem stackInv_pop_some {V : Type} (cur : String) {st : List (Scope V)}
    (hinv : StackInv st) : ∃ t r, popStale cur st = some (t :: r) := by
  induction st with
  | nil => simp [StackInv] at hinv
  | cons s rest ih =>
    by_cases hc : s.contains cur = true
    · exact ⟨s, rest, popStale_of_contains hc⟩
    · cases rest with
      | nil => exact absurd (contains_of_name_empty hinv cur) hc
      | cons t r =>
        obtain ⟨t2, r2, h⟩ := ih hinv.2
        exact ⟨t2, r2, by rw [popStale_cons_false hc]; exact h⟩

theorem setConfig_of_pop {V : Type} {cur k : String} {v : V} {st : List (Scope V)}
    {t : Scope V} {r : List (Scope V)} (hpop : popStale cur st = some (t :: r)) :
    setConfig cur k v st =
      if t.name = cur then some (⟨t.name, setEntry t.entries k v⟩ :: r)
      else some (⟨cur, [(k, v)]⟩ :: t :: r) := by
  have hc := popStale_cons_contains hpop
  unfold setConfig
  rw [hpop]
  simp only [hc, if_true]

theorem stackInv_set {V : Type} {cur k : String} {v : V} {st st2 : List (Scope V)}
    (hinv : StackInv st) (h : setConfig cur k v st = some st2) : StackInv st2 := by
  cases hpop : popStale cur st with
  | none => unfold setConfig at h; rw [hpop] at h; cases h
  | some l =>
    cases l with
    | nil => unfold setConfig at h; rw [hpop] at h; cases h
    | cons t r =>
      have hc := popStale_cons_contains hpop
      rw [setConfig_of_pop hpop] at h
      have hp : StackInv (t :: r) := stackInv_pop hinv hpop
      by_cases hname : t.name = cur
      · rw [if_pos hname] at h
        cases h
        cases r with
        | nil => exact hp
        | cons t2 r2 => exact ⟨hp.1, hp.2⟩
      · rw [if_neg hname] at h
        cases h
        exact ⟨hc, hp⟩

theorem stackInv_steps {V : Type} {st1 st2 : List (Scope V)} (h : Steps st1 st2) :
    StackInv st1 → StackInv st2 := by
  induction h with
  | refl st => exact id
  | pop cur s1 s2 s3 hs hp ih => exact fun hinv => stackInv_pop (ih hinv) hp
  | set_ cur k v s1 s2 s3 hs hset ih => exact fun hinv => stackInv_set (ih hinv) hset

theorem stackInv_init {V : Type} : StackInv (configInit (V := V)) := by
  simp [StackInv, configInit]

theorem reachable_stackInv {V : Type} {st : List (Scope V)} (h : Reachable st) :
    StackInv st :=
  stackInv_steps h stackInv_init

theorem stackInv_last {V : Type} {st : List (Scope V)} (hinv : StackInv st) :
    ∃ root, st.getLast? = some root ∧ root.name = "" := by
  induction st with
  | nil => simp [StackInv] at hinv
  | cons s rest ih =>
    cases rest with
    | nil => exact ⟨s, rfl, hinv⟩
    | cons t r =>
      obtain ⟨root, h1, h2⟩ := ih hinv.2
      exact ⟨root, by rw [List.getLast?_cons_cons]; exact h1, h2⟩

theorem stackInv_chain_contains {V : Type} {cur : String} {t : Scope V}
    {r : List (Scope V)} (hinv : StackInv (t :: r)) (hc : t.contains cur = true) :
    ∀ s ∈ t :: r, s.contains cur = true := by
  induction r generalizing t with
  | nil =>
    intro s hs
    rw [List.mem_singleton.mp hs]
    exact hc
  | cons t2 r2 ih =>
    intro s hs
    have h2 : t2.contains cur = true := strSW_trans t2.name t.name cur hinv.1 hc
    rcases List.mem_cons.mp hs with h1 | h1
    · exact h1 ▸ hc
    · exact ih hinv.2 h2 s h1

theorem popStale_all_contain {V : Type} {cur : String} {st st2 : List (Scope V)}
    (hinv : StackInv st) (h : popStale cur st = some st2) :
    ∀ s ∈ st2, s.contains cur = true := by
  obtain ⟨t, r, rfl, hc⟩ := popStale_head_contains h
  exact stackInv_chain_contains (stackInv_pop hinv h) hc

theorem lookup_setEntry {V : Type} (l : List (String × V)) (k k2 : String) (v : V) :
    lookupEntries k (setEntry l k2 v) =
      if k2 = k then some v else lookupEntries k l := by
  induction l with
  | nil => simp [setEntry, lookupEntries]
  | cons p rest ih =>
    by_cases hp : p.1 = k2
    · rw [setEntry, if_pos hp]
      by_cases hk : k2 = k
      · simp [lookupEntries, hk]
      · simp [lookupEntries, hk]
        rw [if_neg (by rw [hp]; exact hk)]
    · rw [setEntry, if_neg hp]
      by_cases hpk : p.1 = k
      · have hk : ¬ k2 = k := fun h => hp (h ▸ hpk)
        simp [lookupEntries, hpk, hk]
      · simp [lookupEntries, hpk, ih]

theorem containsStack_eq_isSome {V : Type} (k : String) (st : List (Scope V)) :
    containsStack k st = (lookupStack k st).isSome := by
  induction st with
  | nil => rfl
  | cons s rest ih =>
    cases h : lookupEntries k s.entries with
    | none => simp [containsStack, lookupStack, h, ih]
    | some v => simp [containsStack, lookupStack, h]

theorem lookupStack_eq_none {V : Type} (k : String) (st : List (Scope V)) :
    lookupStack k st = none ↔ ∀ s ∈ st, lookupEntries k s.entries = none := by
  induction st with
  | nil => simp [lookupStack]
  | cons s rest ih =>
    cases h : lookupEntries k s.entries with
    | none => simp [lookupStack, h, ih]
    | some v => simp [lookupStack, h]

theorem containsStack_of_mem {V : Type} {k : String} {st : List (Scope V)}
    {s : Scope V} (hs : s ∈ st) (hk : (lookupEntries k s.entries).isSome = true) :
    containsStack k st = true := by
  induction st with
  | nil => cases hs
  | cons t rest ih =>
    cases ht : lookupEntries k t.entries with
    | some v => simp [containsStack, ht]
    | none =>
      rcases List.mem_cons.mp hs with h1 | h1
      · rw [h1, ht] at hk
        cases hk
      · simp [containsStack, ht, ih h1]

theorem steps_trans {V : Type} {a b c : List (Scope V)} (h2 : Steps b c) :
    Steps a b → Steps a c := by
  induction h2 with
  | refl st => exact id
  | pop cur s1 s2 s3 hs hp ih => exact fun h1 => Steps.pop cur a s2 s3 (ih h1) hp
  | set_ cur k v s1 s2 s3 hs hset ih =>
    exact fun h1 => Steps.set_ cur k v a s2 s3 (ih h1) hset

theorem setConfig_head {V : Type} {st st1 : List (Scope V)} {p k : String} {v : V}
    (h : setConfig p k v st = some st1) :
    ∃ hd tl, st1 = hd :: tl ∧ hd.name = p ∧
      lookupEntries k hd.entries = some v := by
  cases hpop : popStale p st with
  | none => unfold setConfig at h; rw [hpop] at h; cases h
  | some l =>
    cases l with
    | nil => unfold setConfig at h; rw [hpop] at h; cases h
    | cons t r =>
      rw [setConfig_of_pop hpop] at h
      by_cases hname : t.name = p
      · rw [if_pos hname] at h
        injection h with h2
        refine ⟨⟨t.name, setEntry t.entries k v⟩, r, h2.symm, hname, ?_⟩
        rw [lookup_setEntry, if_pos rfl]
      · rw [if_neg hname] at h
        injection h with h2
        refine ⟨⟨p, [(k, v)]⟩, t :: r, h2.symm, rfl, ?_⟩
        simp [lookupEntries]

theorem rootKey_pop {V : Type} {cur k : String} {st st2 : List (Scope V)}
    (hr : rootKeyVisible k st) (h : popStale cur st = some st2) :
    rootKeyVisible k st2 := by
  obtain ⟨s, hs, hn, hk⟩ := hr
  exact ⟨s, popStale_mem_preserved h hs hn, hn, hk⟩

theorem rootKey_set {V : Type} {cur k2 k : String} {v : V} {st st2 : List (Scope V)}
    (hr : rootKeyVisible k st) (h : setConfig cur k2 v st = some st2) :
    rootKeyVisible k st2 := by
  obtain ⟨s, hs, hn, hk⟩ := hr
  cases hpop : popStale cur st with
  | none => unfold setConfig at h; rw [hpop] at h; cases h
  | some l =>
    cases l with
    | nil => unfold setConfig at h; rw [hpop] at h; cases h
    | cons t r =>
      have hmem : s ∈ t :: r := popStale_mem_preserved hpop hs hn
      rw [setConfig_of_pop hpop] at h
      by_cases hname : t.name = cur
      · rw [if_pos hname] at h
        injection h with h2
        rcases List.mem_cons.mp hmem with h1 | h1
        · refine ⟨⟨t.name, setEntry t.entries k2 v⟩, h2 ▸ List.mem_cons_self _ _, ?_, ?_⟩
          · show t.name = ""
            rw [← h1]
            exact hn
          · show (lookupEntries k (setEntry t.entries k2 v)).isSome = true
            rw [lookup_setEntry]
            by_cases hkk : k2 = k
            · rw [if_pos hkk]
              rfl
            · rw [if_neg hkk, ← h1]
              exact hk
        · exact ⟨s, h2 ▸ List.mem_cons_of_mem _ h1, hn, hk⟩
      · rw [if_neg hname] at h
        injection h with h2
        exact ⟨s, h2 ▸ List.mem_cons_of_mem _ hmem, hn, hk⟩

theorem rootKey_steps {V : Type} {k : String} {st1 st2 : List (Scope V)}
    (h : Steps st1 st2) : rootKeyVisible k st1 → rootKeyVisible k st2 := by
  induction h with
  | refl st => exact id
  | pop cur s1 s2 s3 hs hp ih => exact fun hr => rootKey_pop (ih hr) hp
  | set_ cur k2 v s1 s2 s3 hs hset ih => exact fun hr => rootKey_set (ih hr) hset

theorem rootKey_contains {V : Type} {k : String} {st : List (Scope V)}
    (h : rootKeyVisible k st) (cur : String) :
    containsConfig cur k st = some true := by
  obtain ⟨s, hs, hn, hk⟩ := h
  obtain ⟨st2, hpop, hmem⟩ := popStale_mem_empty_name cur hs hn
  unfold containsConfig
  rw [hpop]
  show some (containsStack k st2) = some true
  rw [containsStack_of_mem hmem hk]

theorem rootKey_of_set_empty {V : Type} {st st1 : List (Scope V)} {k : String}
    {v : V} (h : setConfig "" k v st = some st1) : rootKeyVisible k st1 := by
  obtain ⟨hd, tl, heq, hname, hlook⟩ := setConfig_head h
  exact ⟨hd, heq ▸ List.mem_cons_self _ _, hname, by rw [hlook]; rfl⟩

theorem getVal_of_pop {V : Type} {cur k : String} {st st2 : List (Scope V)}
    (h : popStale cur st = some st2) : getVal cur k st = some (lookupStack k st2) := by
  unfold getVal
  rw [h]
  rfl

theorem containsConfig_of_pop {V : Type} {cur k : String} {st st2 : List (Scope V)}
    (h : popStale cur st = some st2) :
    containsConfig cur k st = some (containsStack k st2) := by
  unfold containsConfig
  rw [h]
  rfl

theorem setDefault_of_pop {V : Type} {cur k : String} {v : V} {st st2 : List (Scope V)}
    (h : popStale cur st = some st2) :
    setDefault cur k v st =
      if containsStack k st2 then some st2 else setConfig cur k v st2 := by
  unfold setDefault
  rw [h]

theorem toDict_of_pop {V : Type} {cur : String} {st st2 : List (Scope V)}
    (h : popStale cur st = some st2) :
    toDict cur st = some ((List.range st2.length).foldl
      (fun out i => insertScopeEntries out (pyNegGet st2 i)) []) := by
  unfold toDict
  rw [h]
  rfl

theorem lookupStack_cons_some {V : Type} {k : String} {s : Scope V}
    {rest : List (Scope V)} {v : V} (h : lookupEntries k s.entries = some v) :
    lookupStack k (s :: rest) = some v := by
  simp [lookupStack, h]

theorem lookupStack_cons_none {V : Type} {k : String} {s : Scope V}
    {rest : List (Scope V)} (h : lookupEntries k s.entries = none) :
    lookupStack k (s :: rest) = lookupStack k rest := by
  simp [lookupStack, h]

theorem not_eq_true_of_eq_false {b : Bool} (h : b = false) : ¬ b = true := by
  rw [h]
  exact Bool.false_ne_true

/-- Claim C1: refuted as stated; this theorem evaluates the code at the failing
input.  The state with stack `[Scope "a" with k=2, root with k=1]` at current
path `"a"` is reachable (set k=1 at the root, then set k=2 inside scope "a"),
and `to_dict` maps `"k"` to the OUTER value 1 even though `get` returns the
innermost value 2: the loop reads `stack[-i]` for `i in range(len(stack))`,
visiting `stack[0]` first (since `-0 == 0`), so outer scopes overwrite the
innermost scope's entries instead of the other way round. -/
theorem toDict_outer_value_wins :
    Reachable ([⟨"a", [("k", 2)]⟩, ⟨"", [("k", 1)]⟩] : List (Scope Nat)) ∧
    toDict "a" ([⟨"a", [("k", 2)]⟩, ⟨"", [("k", 1)]⟩] : List (Scope Nat)) =
      some [("k", 1)] ∧
    getVal "a" "k" ([⟨"a", [("k", 2)]⟩, ⟨"", [("k", 1)]⟩] : List (Scope Nat)) =
      some (some 2) := by
  refine ⟨?_, rfl, rfl⟩
  exact Steps.set_ "a" "k" 2 _ _ _ (Steps.set_ "" "k" 1 _ _ _ (Steps.refl _) rfl) rfl

/-- Claim C4: in every reachable state, after eviction the top scope's path is
a prefix of the current path, so the defensive assertion in `set` never fires
and `set` always succeeds. -/
theorem set_assertion_unreachable {V : Type} (st : List (Scope V)) (cur : String)
    (h : Reachable st) :
    ∃ t r, popStale cur st = some (t :: r) ∧ t.contains cur = true ∧
      ∀ k : String, ∀ v : V, (setConfig cur k v st).isSome = true := by
  obtain ⟨t, r, hpop⟩ := stackInv_pop_some cur (reachable_stackInv h)
  refine ⟨t, r, hpop, popStale_cons_contains hpop, fun k v => ?_⟩
  rw [setConfig_of_pop hpop]
  by_cases hname : t.name = cur
  · rw [if_pos hname]
    rfl
  · rw [if_neg hname]
    rfl

/-- Witness for C4 at the freshly constructed store and current path "x". -/
theorem set_assertion_unreachable_witness :
    ∃ t r, popStale "x" (configInit (V := Nat)) = some (t :: r) ∧
      t.contains "x" = true ∧
      ∀ k : String, ∀ v : Nat, (setConfig "x" k v (configInit (V := Nat))).isSome = true :=
  set_assertion_unreachable configInit "x" (Steps.refl _)

/-- Claim C5: `contains` agrees with `get` (presence iff `get` returns a
value), and `get` reports KeyNotFound exactly when the key is absent from
every scope left on the stack after eviction. -/
theorem get_contains_agreement {V : Type} (st : List (Scope V)) (cur k : String) :
    (containsConfig cur k st = some true ↔ ∃ v, getVal cur k st = some (some v)) ∧
    (getVal cur k st = some none ↔
      ∃ st2, popStale cur st = some st2 ∧
        ∀ s ∈ st2, lookupEntries k s.entries = none) := by
  cases hpop : popStale cur st with
  | none =>
    constructor
    · constructor
      · intro h
        unfold containsConfig at h
        rw [hpop] at h
        cases h
      · rintro ⟨v, h⟩
        unfold getVal at h
        rw [hpop] at h
        cases h
    · constructor
      · intro h
        unfold getVal at h
        rw [hpop] at h
        cases h
      · rintro ⟨st2, h, _⟩
        cases h
  | some st2 =>
    rw [getVal_of_pop hpop, containsConfig_of_pop hpop]
    constructor
    · rw [containsStack_eq_isSome]
      constructor
      · intro h
        injection h with h2
        obtain ⟨v, hv⟩ := Option.isSome_iff_exists.mp h2
        exact ⟨v, by rw [hv]⟩
      · rintro ⟨v, hv⟩
        injection hv with hv2
        rw [hv2]
        rfl
    · constructor
      · intro h
        injection h with h2
        exact ⟨st2, rfl, (lookupStack_eq_none k st2).mp h2⟩
      · rintro ⟨st3, h3, hall⟩
        injection h3 with h3
        subst h3
        rw [(lookupStack_eq_none k st2).mpr hall]

/-- Claim C6: `set` evicts first; given the evicted stack, it pushes a new
scope exactly when the top scope's name differs from the current path, then
writes the key into the top scope.  Reads (`get`, `contains`, `to_dict`) only
ever shrink the stack (their state effect is eviction, a suffix), never push. -/
theorem set_pushes_iff_top_differs {V : Type} (st : List (Scope V)) (cur k : String)
    (v : V) (t : Scope V) (r : List (Scope V))
    (hpop : popStale cur st = some (t :: r)) :
    setConfig cur k v st =
      some (if t.name = cur then ⟨t.name, setEntry t.entries k v⟩ :: r
            else ⟨cur, [(k, v)]⟩ :: t :: r) ∧
    ∀ cur2 : String, ∀ st2 : List (Scope V),
      popStale cur2 st = some st2 → st2 <:+ st := by
  constructor
  · rw [setConfig_of_pop hpop]
    by_cases hname : t.name = cur
    · rw [if_pos hname, if_pos hname]
    · rw [if_neg hname, if_neg hname]
  · exact fun cur2 st2 h => popStale_suffix h

/-- Witness for C6: on the fresh store at current path "a", set pushes a new
scope "a" (the root's name differs), and eviction results are suffixes. -/
theorem set_pushes_iff_top_differs_witness :
    setConfig "a" "k" (7 : Nat) configInit =
      some (if (Scope.mk "" ([] : List (String × Nat))).name = "a"
            then ⟨(Scope.mk "" ([] : List (String × Nat))).name,
                  setEntry (Scope.mk "" ([] : List (String × Nat))).entries "k" 7⟩ :: []
            else ⟨"a", [("k", 7)]⟩ :: Scope.mk "" ([] : List (String × Nat)) :: []) ∧
    ∀ cur2 : String, ∀ st2 : List (Scope Nat),
      popStale cur2 configInit = some st2 → st2 <:+ configInit :=
  set_pushes_iff_top_differs configInit "a" "k" 7 ⟨"", []⟩ [] rfl

/-- Claim C10: in every reachable state the eviction loop succeeds and leaves
a nonempty stack (the root's empty path is a prefix of every current path),
so every operation's stack-top access succeeds. -/
theorem operations_total {V : Type} (st : List (Scope V)) (h : Reachable st)
    (cur k : String) (v : V) :
    (∃ t r, popStale cur st = some (t :: r)) ∧
    (getVal cur k st).isSome = true ∧
    (containsConfig cur k st).isSome = true ∧
    (toDict cur st).isSome = true ∧
    (setConfig cur k v st).isSome = true ∧
    (setDefault cur k v st).isSome = true := by
  obtain ⟨t, r, hpop⟩ := stackInv_pop_some cur (reachable_stackInv h)
  have hsetp : ∀ st3 : List (Scope V), popStale cur st3 = some (t :: r) →
      (setConfig cur k v st3).isSome = true := by
    intro st3 h3
    rw [setConfig_of_pop h3]
    by_cases hname : t.name = cur
    · rw [if_pos hname]
      rfl
    · rw [if_neg hname]
      rfl
  refine ⟨⟨t, r, hpop⟩, ?_, ?_, ?_, hsetp st hpop, ?_⟩
  · rw [getVal_of_pop hpop]
    rfl
  · rw [containsConfig_of_pop hpop]
    rfl
  · rw [toDict_of_pop hpop]
    rfl
  · rw [setDefault_of_pop hpop]
    by_cases hcs : containsStack k (t :: r) = true
    · rw [if_pos hcs]
      rfl
    · rw [if_neg hcs]
      exact hsetp (t :: r) (popStale_idem hpop)

/-- Witness for C10 at the freshly constructed store. -/
theorem operations_total_witness :
    (∃ t r, popStale "z" (configInit (V := Nat)) = some (t :: r)) ∧
    (getVal "z" "k" (configInit (V := Nat))).isSome = true ∧
    (containsConfig "z" "k" (configInit (V := Nat))).isSome = true ∧
    (toDict "z" (configInit (V := Nat))).isSome = true ∧
    (setConfig "z" "k" (3 : Nat) configInit).isSome = true ∧
    (setDefault "z" "k" (3 : Nat) configInit).isSome = true :=
  operations_total configInit (Steps.refl _) "z" "k" 3

/-- Claim C2: shadowing.  After setting k to v1 at path p and then to v2 at
descendant path p/q, `get k` at current path p/q returns v2 (the innermost
match, scanning from stack[0] outward), and after the current path returns to
p it returns v1 (the p/q scope is evicted). -/
theorem shadowing_innermost_wins {V : Type} (st st1 st2 : List (Scope V))
    (p q k : String) (v1 v2 : V)
    (h1 : setConfig p k v1 st = some st1)
    (h2 : setConfig (p ++ "/" ++ q) k v2 st1 = some st2) :
    getVal (p ++ "/" ++ q) k st2 = some (some v2) ∧
    getVal p k st2 = some (some v1) := by
  obtain ⟨hd, tl, rfl, hname, hlook⟩ := setConfig_head h1
  have hcont : hd.contains (p ++ "/" ++ q) = true := by
    show strStartsWith (p ++ "/" ++ q) hd.name = true
    rw [hname]
    exact strSW_pq p q
  have hpop1 : popStale (p ++ "/" ++ q) (hd :: tl) = some (hd :: tl) :=
    popStale_of_contains hcont
  rw [setConfig_of_pop hpop1] at h2
  rw [if_neg (by rw [hname]; exact slash_ne p q)] at h2
  injection h2 with h2
  subst h2
  constructor
  · have hcont2 :
        Scope.contains (⟨p ++ "/" ++ q, [(k, v2)]⟩ : Scope V) (p ++ "/" ++ q) = true := by
      show strStartsWith (p ++ "/" ++ q) (p ++ "/" ++ q) = true
      exact strSW_refl _
    rw [getVal_of_pop (popStale_of_contains hcont2)]
    rw [lookupStack_cons_some (by
      show lookupEntries k [(k, v2)] = some v2
      simp [lookupEntries])]
  · have hcont3 :
        Scope.contains (⟨p ++ "/" ++ q, [(k, v2)]⟩ : Scope V) p = false := by
      show strStartsWith p (p ++ "/" ++ q) = false
      exact strSW_pq_false p q
    have hcont4 : hd.contains p = true := by
      show strStartsWith p hd.name = true
      rw [hname]
      exact strSW_refl p
    have hpop2 :
        popStale p ((⟨p ++ "/" ++ q, [(k, v2)]⟩ : Scope V) :: hd :: tl) =
          some (hd :: tl) := by
      rw [popStale_cons_false (not_eq_true_of_eq_false hcont3)]
      exact popStale_of_contains hcont4
    rw [getVal_of_pop hpop2, lookupStack_cons_some hlook]

/-- Witness for C2: from the fresh store, set k=1 at "foo" and k=2 at
"foo/meow"; get returns 2 at "foo/meow" and 1 back at "foo". -/
theorem shadowing_innermost_wins_witness :
    getVal ("foo" ++ "/" ++ "meow") "k"
        ([⟨"foo/meow", [("k", 2)]⟩, ⟨"foo", [("k", 1)]⟩, ⟨"", []⟩] : List (Scope Nat)) =
      some (some 2) ∧
    getVal "foo" "k"
        ([⟨"foo/meow", [("k", 2)]⟩, ⟨"foo", [("k", 1)]⟩, ⟨"", []⟩] : List (Scope Nat)) =
      some (some 1) :=
  shadowing_innermost_wins configInit
    [⟨"foo", [("k", 1)]⟩, ⟨"", []⟩]
    [⟨"foo/meow", [("k", 2)]⟩, ⟨"foo", [("k", 1)]⟩, ⟨"", []⟩]
    "foo" "meow" "k" 1 2 rfl rfl

/-- Claim C3: along any sequence of operations the root scope is never
evicted and stays at the bottom of the stack, and a key set while the current
path is the root path stays visible from every later current path. -/
theorem root_scope_persistence {V : Type} (st st1 st2 : List (Scope V))
    (k : String) (v : V) (hreach : Reachable st)
    (hset : setConfig "" k v st = some st1) (hsteps : Steps st1 st2) :
    (∃ root, st2.getLast? = some root ∧ root.name = "") ∧
    ∀ cur : String, containsConfig cur k st2 = some true := by
  have hr1 : Reachable st1 :=
    steps_trans (Steps.set_ "" k v st st st1 (Steps.refl st) hset) hreach
  have hr2 : Reachable st2 := steps_trans hsteps hr1
  refine ⟨stackInv_last (reachable_stackInv hr2), ?_⟩
  exact fun cur =>
    rootKey_contains (rootKey_steps hsteps (rootKey_of_set_empty hset)) cur

/-- Witness for C3: set k=5 at the root of the fresh store, take no further
steps; the root is at the bottom and k is visible from every current path. -/
theorem root_scope_persistence_witness :
    (∃ root, ([⟨"", [("k", 5)]⟩] : List (Scope Nat)).getLast? = some root ∧
      root.name = "") ∧
    ∀ cur : String,
      containsConfig cur "k" ([⟨"", [("k", 5)]⟩] : List (Scope Nat)) = some true :=
  root_scope_persistence configInit [⟨"", [("k", 5)]⟩] [⟨"", [("k", 5)]⟩]
    "k" 5 (Steps.refl _) rfl (Steps.refl _)

/-- Claim C7: after setting k at path p and moving the current path to a q
that does not start with p, `get k` raises KeyNotFound, provided k is not held
by any scope still valid for q (path a prefix of q). -/
theorem stale_eviction_key_not_found {V : Type} (st st1 : List (Scope V))
    (p q k : String) (v : V) (hreach : Reachable st)
    (hset : setConfig p k v st = some st1)
    (hout : strStartsWith q p = false)
    (hprov : ∀ s ∈ st1, s.contains q = true → lookupEntries k s.entries = none) :
    getVal q k st1 = some none := by
  have hinv1 : StackInv st1 := stackInv_set (reachable_stackInv hreach) hset
  obtain ⟨t, r, hpop⟩ := stackInv_pop_some q hinv1
  rw [getVal_of_pop hpop]
  have hnone : lookupStack k (t :: r) = none :=
    (lookupStack_eq_none k (t :: r)).mpr (fun s hs =>
      hprov s ((popStale_suffix hpop).subset hs)
        (popStale_all_contain hinv1 hpop s hs))
  rw [hnone]

/-- Witness for C7: set k=7 inside path "a" from the fresh store, then read k
at current path "b"; get reports KeyNotFound. -/
theorem stale_eviction_key_not_found_witness :
    getVal "b" "k" ([⟨"a", [("k", 7)]⟩, ⟨"", []⟩] : List (Scope Nat)) = some none :=
  stale_eviction_key_not_found configInit [⟨"a", [("k", 7)]⟩, ⟨"", []⟩]
    "a" "b" "k" 7 (Steps.refl _) rfl (by decide) (by decide)

/-- Claim C8: when the key is already visible, `set_default` performs no
write: its only state effect is the eviction done by the membership test, and
the value subsequently returned by `get` is unchanged. -/
theorem setDefault_noop_when_visible {V : Type} (st : List (Scope V))
    (cur k : String) (v2 : V) (h : containsConfig cur k st = some true) :
    ∃ st2, setDefault cur k v2 st = some st2 ∧ popStale cur st = some st2 ∧
      getVal cur k st2 = getVal cur k st := by
  cases hpop : popStale cur st with
  | none =>
    unfold containsConfig at h
    rw [hpop] at h
    cases h
  | some stp =>
    have hcs : containsStack k stp = true := by
      have h2 : some (containsStack k stp) = some true := by
        rw [← containsConfig_of_pop hpop]
        exact h
      injection h2
    refine ⟨stp, ?_, rfl, ?_⟩
    · rw [setDefault_of_pop hpop, if_pos hcs]
    · rw [getVal_of_pop hpop, getVal_of_pop (popStale_idem hpop)]

/-- Witness for C8: with k visible at the root, set_default k 9 leaves the
state and the value returned by get unchanged. -/
theorem setDefault_noop_when_visible_witness :
    ∃ st2, setDefault "" "k" (9 : Nat) [⟨"", [("k", 1)]⟩] = some st2 ∧
      popStale "" ([⟨"", [("k", 1)]⟩] : List (Scope Nat)) = some st2 ∧
      getVal "" "k" st2 = getVal "" "k" ([⟨"", [("k", 1)]⟩] : List (Scope Nat)) :=
  setDefault_noop_when_visible [⟨"", [("k", 1)]⟩] "" "k" 9 rfl

/-- Claim C9: scope validity is raw string prefix, not path components.  If k
is set at path p, then at any current path p ++ r (r nonempty and not
starting with "/", so not a hierarchical descendant) the p scope survives
eviction and k stays visible to get and contains. -/
theorem raw_string_visibility {V : Type} (st st1 : List (Scope V))
    (p r k : String) (v : V) (hset : setConfig p k v st = some st1)
    (hne : r ≠ "") (hslash : strStartsWith r "/" = false) :
    popStale (p ++ r) st1 = some st1 ∧
    getVal (p ++ r) k st1 = some (some v) ∧
    containsConfig (p ++ r) k st1 = some true := by
  obtain ⟨hd, tl, rfl, hname, hlook⟩ := setConfig_head hset
  have hcont : hd.contains (p ++ r) = true := by
    show strStartsWith (p ++ r) hd.name = true
    rw [hname]
    exact strSW_append p r
  have hpop : popStale (p ++ r) (hd :: tl) = some (hd :: tl) :=
    popStale_of_contains hcont
  refine ⟨hpop, ?_, ?_⟩
  · rw [getVal_of_pop hpop, lookupStack_cons_some hlook]
  · rw [containsConfig_of_pop hpop]
    rw [containsStack_of_mem (List.mem_cons_self _ _) (by rw [hlook]; rfl)]

/-- Witness for C9: set k=4 at "foo", then read at current path "foobar". -/
theorem raw_string_visibility_witness :
    popStale ("foo" ++ "bar") ([⟨"foo", [("k", 4)]⟩, ⟨"", []⟩] : List (Scope Nat)) =
      some [⟨"foo", [("k", 4)]⟩, ⟨"", []⟩] ∧
    getVal ("foo" ++ "bar") "k"
        ([⟨"foo", [("k", 4)]⟩, ⟨"", []⟩] : List (Scope Nat)) = some (some 4) ∧
    containsConfig ("foo" ++ "bar") "k"
        ([⟨"foo", [("k", 4)]⟩, ⟨"", []⟩] : List (Scope Nat)) = some true :=
  raw_string_visibility configInit [⟨"foo", [("k", 4)]⟩, ⟨"", []⟩]
    "foo" "bar" "k" 4 rfl (by decide) (by decide)
